import Mathlib

/-!
Shallow embedding of the indicator / resampling engine of TAcharts
(src/py/utils.py) over exact rationals, together with proofs about the
claims of the specification.  Machine floats of the source are modelled
by rationals; numpy arrays and pandas series by Lean lists.
-/

/-- One OHLCV row of a price table: the six columns of
src/py/utils.py's group_candles, in source order. -/
structure Row where
  date : ℚ
  «open» : ℚ
  high : ℚ
  low : ℚ
  close : ℚ
  volume : ℚ
deriving DecidableEq, Repr

instance : Inhabited Row := ⟨⟨0, 0, 0, 0, 0, 0⟩⟩

/-- Python range(0, m, k) for step k ≥ 1 : the arithmetic progression
0, k, 2k, ... of every multiple of k strictly below m.  Its j-th element
is j*k and its length is the ceiling of m / k, here written
(m + k - 1) / k in truncated natural arithmetic (so an empty range when
m = 0, which is how a non-positive Python stop behaves). -/
def rangeStep (m k : ℕ) : List ℕ :=
  (List.range ((m + k - 1) / k)).map (fun j => j * k)

/-- numpy ndarray.max over a slice: the greatest element of a non-empty
list (the empty case, on which numpy raises, is given the junk value 0
and is never reached by the code). -/
def npMax : List ℚ → ℚ
  | [] => 0
  | x :: xs => xs.foldl max x

/-- numpy ndarray.min over a slice, as npMax. -/
def npMin : List ℚ → ℚ
  | [] => 0
  | x :: xs => xs.foldl min x

/-- group_candles from src/py/utils.py.  Iterates i over
range(0, len(df) - interval, interval) and emits for each window the row
[date i, open i, max high over i..i+interval-1, min low over the window,
close at i + interval, sum volume over the window].  Out-of-range reads
(which the source never performs, see the safety claim) are given the
default row. -/
def group_candles (df : List Row) (interval : ℕ) : List Row :=
  (rangeStep (df.length - interval) interval).map (fun i =>
    { date := (df.getD i default).date
      «open» := (df.getD i default).open
      high := npMax (((df.drop i).take interval).map Row.high)
      low := npMin (((df.drop i).take interval).map Row.low)
      close := (df.getD (i + interval) default).close
      volume := (((df.drop i).take interval).map Row.volume).sum })

/-- numpy linspace(a, b, num, endpoint=False): the num samples
a + (b - a) * j / num for j = 0 .. num - 1. -/
def linspaceNE (a b : ℚ) (num : ℕ) : List ℚ :=
  (List.range num).map (fun (j : ℕ) => a + (b - a) * (j : ℚ) / num)

/-- The adjacent sample pairs zip(averages[:-1], averages[1:]) of
fill_values from src/py/utils.py. -/
def fvPairs (averages : List ℚ) : List (ℚ × ℚ) :=
  List.zip (averages.take (averages.length - 1)) (averages.drop 1)

/-- The concatenated linspace segments of fill_values. -/
def fvUnpack (averages : List ℚ) (interval : ℕ) : List ℚ :=
  ((fvPairs averages).map (fun p => linspaceNE p.1 p.2 interval)).flatten

/-- fill_values from src/py/utils.py: zips averages[:-1] with
averages[1:], maps linspace(a, b, interval, endpoint=False) over the
pairs, concatenates, and extends with copies of averages[-1] up to
target_len (a negative Python extension count is the empty extension,
matching truncated natural subtraction). -/
def fill_values (averages : List ℚ) (interval target_len : ℕ) : List ℚ :=
  fvUnpack averages interval ++
    List.replicate (target_len - (fvUnpack averages interval).length)
      (averages.getLastD 0)

/-- Tail of pandas ewm(span, adjust=False).mean(): given the previous
output value, each new input x contributes (1 - a) * prev + a * x. -/
def emaGo (a : ℚ) : ℚ → List ℚ → List ℚ
  | _, [] => []
  | prev, x :: xs =>
    let y := (1 - a) * prev + a * x
    y :: emaGo a y xs

/-- ema from src/py/utils.py: pandas ewm with smoothing 2 / (span + 1),
min_periods=1 and adjust=False, whose first output equals the first
input. -/
def ema (line : List ℚ) (span : ℕ) : List ℚ :=
  match line with
  | [] => []
  | x :: xs => x :: emaGo (2 / ((span : ℚ) + 1)) x xs

/-- macd from src/py/utils.py: the elementwise difference
ema(close, fast) - ema(close, slow) of two equally indexed series. -/
def macd (close : List ℚ) (fast slow : ℕ) : List ℚ :=
  List.zipWith (fun a b => a - b) (ema close fast) (ema close slow)

/-- numpy diff of a series: successive differences l[i+1] - l[i]. -/
def npDiff (l : List ℚ) : List ℚ :=
  List.zipWith (fun a b => a - b) (l.drop 1) l

/-- roc from src/py/utils.py for a lookback n ≥ 1.  The source divides
close.diff(n).dropna() positionally by close[:-n], multiplies by 100,
appends an n-long series of empty (NaN) placeholder slots indexed
0..n-1 and sorts by index, which moves the placeholders to the front;
placeholders are modelled by none.  (Python close[:-0] is empty, hence
the n = 0 guard; every claim assumes n ≥ 1.) -/
def roc (close : List ℚ) (n : ℕ) : List (Option ℚ) :=
  List.replicate n none ++
    (List.zipWith (fun a b => (a - b) / b * 100)
      (close.drop n) (if n = 0 then [] else close.take (close.length - n))).map some

/-- Seed value up of rsi from src/py/utils.py: the source takes
seed = deltas[:n+1] (the first n + 1 first-differences) and divides the
sum of its positive entries by n. -/
def rsiSeedUp (close : List ℚ) (n : ℕ) : ℚ :=
  (((npDiff close).take (n + 1)).filter (fun d => decide (0 < d))).sum / n

/-- Seed value down of rsi: minus the sum of the negative entries of
seed = deltas[:n+1], divided by n. -/
def rsiSeedDown (close : List ℚ) (n : ℕ) : ℚ :=
  -(((npDiff close).take (n + 1)).filter (fun d => decide (d < 0))).sum / n

/-- One pass of the rsi loop body over the running pair (up, down):
a positive delta contributes to up, otherwise -delta contributes to
down, with exponential weights (n - 1) / n and 1 / n. -/
def rsiStep (n : ℕ) (ud : ℚ × ℚ) (delta : ℚ) : ℚ × ℚ :=
  let up_val := if 0 < delta then delta else 0
  let down_val := if 0 < delta then 0 else -delta
  ((ud.1 * ((n : ℚ) - 1) + up_val) / n, (ud.2 * ((n : ℚ) - 1) + down_val) / n)

/-- The rsi loop for i in range(n, len(close)), one output value
100 - 100 / (1 + up / down) per consumed delta. -/
def rsiLoop (n : ℕ) : ℚ × ℚ → List ℚ → List ℚ
  | _, [] => []
  | ud, d :: ds =>
    let ud2 := rsiStep n ud d
    (100 - 100 / (1 + ud2.1 / ud2.2)) :: rsiLoop n ud2 ds

/-- rsi from src/py/utils.py for a period n ≥ 1: the first
min n (len close) slots hold the seeded constant
100 - 100 / (1 + up / down), and the loop for i in range(n, len close)
consumes deltas[i-1], i.e. the deltas from index n - 1 on.  (The n = 0
case of the source reads deltas[-1] by Python negative indexing and is
not modelled; every claim assumes n ≥ 1.) -/
def rsi (close : List ℚ) (n : ℕ) : List ℚ :=
  List.replicate (min n close.length)
      (100 - 100 / (1 + rsiSeedUp close n / rsiSeedDown close n)) ++
    rsiLoop n (rsiSeedUp close n, rsiSeedDown close n) ((npDiff close).drop (n - 1))

/-- Boolean series x1 > x2 of crossover from src/py/utils.py. -/
def gtSeries (x1 x2 : List ℚ) : List Bool :=
  List.zipWith (fun a b => decide (b < a)) x1 x2

/-- numpy diff of the boolean series (exclusive or of adjacent entries)
with a False inserted in front, as in crossover. -/
def crossSeries (x1 x2 : List ℚ) : List Bool :=
  false :: List.zipWith (fun p q => p != q) ((gtSeries x1 x2).drop 1) (gtSeries x1 x2)

/-- crossover from src/py/utils.py: the boolean series x1 > x2, its
numpy diff (exclusive or on booleans), a False inserted in front, and
flatnonzero, i.e. the ascending indices of the true entries. -/
def crossover (x1 x2 : List ℚ) : List ℕ :=
  (List.range (crossSeries x1 x2).length).filter
    (fun i => (crossSeries x1 x2).getD i false)

/-- area_between from src/py/utils.py, with the pair sequence
zip(x1, x2) materialised: the difference series, per adjacent pair a
triangular part abs (x2 - x1) / 2 and a rectangular part min x1 x2, all
summed into one scalar.  Under Python 3 the source's
np.amin(zip(x1, x2), axis=1) instead receives a zero-dimensional object
array (zip is a lazy iterator) and raises; this embedding models the
arithmetic the function documents. -/
def area_between (line1 line2 : List ℚ) : ℚ :=
  let diff := List.zipWith (fun a b => a - b) line1 line2
  let x1 := diff.take (diff.length - 1)
  let x2 := diff.drop 1
  let triangle_area := List.zipWith (fun p q => |q - p| * (1 / 2)) x1 x2
  let square_area := List.zipWith min x1 x2
  triangle_area.sum + square_area.sum

/-- Elementwise fold of a binary operation across a stack of series:
numpy amax / amin with axis=0 on a rectangular stack. -/
def npReduce0 (op : ℚ → ℚ → ℚ) : List (List ℚ) → List ℚ
  | [] => []
  | a :: rest => rest.foldl (fun acc s => List.zipWith op acc s) a

/-- maxmin from src/py/utils.py: dispatch on the mode string, numpy
amax or amin over axis 0, and a ValueError (modelled by Except.error)
for any other mode. -/
def maxmin (max_or_min : String) (args : List (List ℚ)) : Except String (List ℚ) :=
  if max_or_min = "max" then Except.ok (npReduce0 max args)
  else if max_or_min = "min" then Except.ok (npReduce0 min args)
  else Except.error "Enter \"max\" or \"min\" as max_or_min parameter."

/-! ## Helper lemmas -/

theorem lt_of_lt_ceilDiv {j m k : ℕ} (hk : 1 ≤ k) (hj : j < (m + k - 1) / k) :
    j * k < m := by
  have h1 : (j + 1) * k ≤ ((m + k - 1) / k) * k := Nat.mul_le_mul_right k hj
  have h2 : ((m + k - 1) / k) * k ≤ m + k - 1 := Nat.div_mul_le_self _ _
  have h3 : (j + 1) * k = j * k + k := by ring
  rw [h3] at h1
  omega

theorem rangeStep_mem {m k s : ℕ} (hk : 1 ≤ k) (hs : s ∈ rangeStep m k) :
    (∃ j, s = j * k) ∧ s < m := by
  rcases List.mem_map.1 hs with ⟨j, hj, rfl⟩
  rw [List.mem_range] at hj
  exact ⟨⟨j, rfl⟩, lt_of_lt_ceilDiv hk hj⟩

theorem group_candles_length_eq (T : List Row) (k : ℕ) :
    (group_candles T k).length = (T.length - k + k - 1) / k := by
  simp [group_candles, rangeStep]

/-- A sample table of ten OHLCV rows used to instantiate theorems. -/
def tenRows : List Row :=
  [⟨0, 10, 12, 9, 11, 5⟩, ⟨1, 11, 14, 10, 13, 2⟩, ⟨2, 13, 13, 8, 9, 4⟩,
   ⟨3, 9, 15, 9, 14, 1⟩, ⟨4, 14, 16, 12, 15, 3⟩, ⟨5, 15, 15, 11, 12, 6⟩,
   ⟨6, 12, 13, 10, 11, 2⟩, ⟨7, 11, 17, 11, 16, 8⟩, ⟨8, 16, 18, 14, 17, 1⟩,
   ⟨9, 17, 19, 15, 18, 2⟩]

/-! ## C2: output length of group_candles -/

/-- C2 (counterexample): on a 10-row table with ratio 4 the source emits
the windows starting at 0 and 4, hence 2 rows, while the claimed length
floor((10 - 4) / 4) is 1. -/
theorem group_candles_length_counterexample :
    (group_candles tenRows 4).length = 2 ∧ (tenRows.length - 4) / 4 = 1 ∧
      (group_candles tenRows 4).length ≠ (tenRows.length - 4) / 4 := by
  decide

/-- C2 (amended): for every OHLCV table and ratio k ≥ 1 the output
length of group_candles is the ceiling of (len(T) - k) / k, written
(len(T) - k + k - 1) / k in truncated natural arithmetic; in particular
the output is empty whenever len(T) ≤ k. -/
theorem group_candles_length_ceil (T : List Row) (k : ℕ) (hk : 1 ≤ k) :
    (group_candles T k).length = (T.length - k + k - 1) / k ∧
      (T.length ≤ k → group_candles T k = []) := by
  refine ⟨group_candles_length_eq T k, fun h => ?_⟩
  have hz : T.length - k = 0 := by omega
  have hd : (T.length - k + k - 1) / k = 0 := by
    rw [hz]
    exact Nat.div_eq_of_lt (by omega)
  simp [group_candles, rangeStep, hz] at hd ⊢
  simp [hd]

/-- C2 (witness): the amended length formula evaluated on the sample
table with ratio 4. -/
theorem group_candles_length_ceil_witness :
    (group_candles tenRows 4).length = (tenRows.length - 4 + 4 - 1) / 4 :=
  (group_candles_length_ceil tenRows 4 (by decide)).1

/-! ## C10: every index group_candles reads is in bounds -/

/-- C10: for k ≥ 1, every emitted window start j * k of group_candles
lies strictly below len(T) - k, and every row index the source reads
for that window, the out-of-window close index j * k + k included, is
strictly below the table length. -/
theorem group_candles_reads_in_bounds (T : List Row) (k : ℕ) (hk : 1 ≤ k) :
    ∀ j, j < (group_candles T k).length →
      j * k < T.length - k ∧ ∀ i ≤ k, j * k + i < T.length := by
  intro j hj
  rw [group_candles_length_eq] at hj
  have h1 : j * k < T.length - k := lt_of_lt_ceilDiv hk hj
  exact ⟨h1, fun i hi => by omega⟩

/-- C10 (witness): the bound at the sample table, ratio 4, window 1. -/
theorem group_candles_reads_in_bounds_witness :
    1 * 4 < tenRows.length - 4 :=
  (group_candles_reads_in_bounds tenRows 4 (by decide) 1 (by decide)).1

/-! ## C9: area_between -/

/-- C9: the arithmetic area_between documents, evaluated at
line1 = [1, 2], line2 = [0, 0]: the difference series is [1, 2], the
single adjacent pair contributes a triangular part 1/2 and a
rectangular part 1, totalling 3/2.  (Under Python 3 the source instead
raises on every input, because np.amin receives the un-materialised zip
iterator as a zero-dimensional object array.) -/
theorem area_between_value : area_between [1, 2] [0, 0] = 3 / 2 := by
  norm_num [area_between]

/-! ## C1: the rsi seed -/

/-- C1 (counterexample): for close = [0, 2, 1, 3, 2, 4] and n = 2 the
first differences are [2, -1, 2, -1, 2].  A seed over the first 2
deltas, as claimed, gives up = 2/2 = 1, down = 1/2 and a predicted
constant 100 - 100 / (1 + 1 / (1/2)) = 200/3 for indices 0..1, but the
source seeds over deltas[:n+1] = [2, -1, 2], giving up = 2, down = 1/2
and the output 80. -/
theorem rsi_seed_counterexample :
    (rsi [0, 2, 1, 3, 2, 4] 2)[0]? = some 80 ∧
      (100 - 100 / (1 + (1 : ℚ) / (1 / 2))) ≠ 80 := by
  constructor
  · norm_num [rsi, rsiSeedUp, rsiSeedDown, npDiff, List.filter, List.replicate_succ]
  · norm_num

/-- C1 (amended): for every close series of length > n + 1 and period
n ≥ 1, rsi seeds its recurrence from exactly the first n + 1 first
differences: rsiSeedUp is the sum of the positive deltas among the
first n + 1 deltas divided by n, rsiSeedDown the sum of the magnitudes
of the negative ones divided by n, and (provided down ≠ 0, the
boundary the reference lets propagate through floats) the output at
every index 0..n-1 is the constant 100 - 100 / (1 + up / down). -/
theorem rsi_seed_prefix (close : List ℚ) (n : ℕ) (hn : 1 ≤ n)
    (hlen : n + 1 < close.length) (hdown : rsiSeedDown close n ≠ 0) :
    ∀ i < n, (rsi close n)[i]? =
      some (100 - 100 / (1 + rsiSeedUp close n / rsiSeedDown close n)) := by
  intro i hi
  have hmin : min n close.length = n := by omega
  unfold rsi
  rw [hmin, List.getElem?_append_left (by simpa using hi), List.getElem?_replicate,
    if_pos hi]

/-- C1 (witness): the amended seed law evaluated at
close = [0, 2, 1, 3, 2, 4], n = 2, index 0. -/
theorem rsi_seed_prefix_witness :
    (rsi [0, 2, 1, 3, 2, 4] 2)[0]? =
      some (100 - 100 /
        (1 + rsiSeedUp [0, 2, 1, 3, 2, 4] 2 / rsiSeedDown [0, 2, 1, 3, 2, 4] 2)) :=
  rsi_seed_prefix [0, 2, 1, 3, 2, 4] 2 (by decide) (by decide)
    (by norm_num [rsiSeedDown, npDiff, List.filter]) 0 (by decide)

/-! ## C5: rate of change -/

/-- C5: for n ≥ 1 and a close series longer than n, roc keeps the input
length, its first n positions are placeholder slots, and every position
i ≥ n holds (close[i] - close[i-n]) / close[i-n] * 100, the
placeholders preceding all valid values in original index order. -/
theorem roc_spec (close : List ℚ) (n : ℕ) (hn : 1 ≤ n)
    (hlen : n < close.length) :
    (roc close n).length = close.length ∧
    (∀ i < n, (roc close n)[i]? = some none) ∧
    (∀ i, n ≤ i → (h2 : i < close.length) →
      (roc close n)[i]? = some (some ((close[i] - close[i - n]) / close[i - n] * 100))) := by
  have hn0 : ¬n = 0 := by omega
  unfold roc
  rw [if_neg hn0]
  have hvlen : (List.zipWith (fun a b => (a - b) / b * 100)
      (close.drop n) (close.take (close.length - n))).length = close.length - n := by
    simp
  refine ⟨?_, ?_, ?_⟩
  · simp [hvlen]
    omega
  · intro i hi
    rw [List.getElem?_append_left (by simpa using hi), List.getElem?_replicate, if_pos hi]
  · intro i h1 h2
    rw [List.getElem?_append_right (by simpa using h1), List.length_replicate,
      List.getElem?_map]
    have hin : i - n < close.length - n := by omega
    have hd : (close.drop n)[i - n]? = some close[i] := by
      rw [List.getElem?_drop, show n + (i - n) = i from by omega,
        List.getElem?_eq_getElem h2]
    have ht : (close.take (close.length - n))[i - n]? = some (close[i - n]) := by
      rw [List.getElem?_take, if_pos hin,
        List.getElem?_eq_getElem (show i - n < close.length by omega)]
    rw [List.getElem?_zipWith, hd, ht]
    rfl

/-- C5 (witness): roc at close = [1, 2, 4, 8], n = 2, index 2 holds
(4 - 1) / 1 * 100. -/
theorem roc_spec_witness :
    (roc [1, 2, 4, 8] 2)[2]? =
      some (some (([(1 : ℚ), 2, 4, 8][2] - [(1 : ℚ), 2, 4, 8][0]) / [(1 : ℚ), 2, 4, 8][0] * 100)) :=
  (roc_spec [1, 2, 4, 8] 2 (by decide) (by decide)).2.2 2 (by decide) (by decide)

/-! ## C8: macd and ema -/

theorem emaGo_length (a prev : ℚ) (xs : List ℚ) :
    (emaGo a prev xs).length = xs.length := by
  induction xs generalizing prev with
  | nil => rfl
  | cons x xs ih => simp [emaGo, ih]

theorem ema_length (line : List ℚ) (span : ℕ) :
    (ema line span).length = line.length := by
  cases line with
  | nil => rfl
  | cons x xs => simp [ema, emaGo_length]

/-- C8: macd(S, fast, slow) has the length of S and equals
ema(S, fast) - ema(S, slow) elementwise, where ema is the unadjusted
exponential moving average with minimum periods 1, so that
ema(S, span) at index 0 equals S[0]. -/
theorem macd_ema_relation (close : List ℚ) (fast slow : ℕ)
    (hf : 1 ≤ fast) (hs : 1 ≤ slow) :
    (macd close fast slow).length = close.length ∧
    (∀ i < close.length,
      (macd close fast slow).getD i 0 =
        (ema close fast).getD i 0 - (ema close slow).getD i 0) ∧
    (∀ span : ℕ, 1 ≤ span → ∀ (x : ℚ) (xs : List ℚ),
      (ema (x :: xs) span)[0]? = some x) := by
  refine ⟨?_, ?_, ?_⟩
  · simp [macd, ema_length]
  · intro i hi
    have h1 : i < (macd close fast slow).length := by simp [macd, ema_length]; exact hi
    have h2 : i < (ema close fast).length := by rw [ema_length]; exact hi
    have h3 : i < (ema close slow).length := by rw [ema_length]; exact hi
    rw [List.getD_eq_getElem?_getD, List.getElem?_eq_getElem h1,
      List.getD_eq_getElem?_getD, List.getElem?_eq_getElem h2,
      List.getD_eq_getElem?_getD, List.getElem?_eq_getElem h3]
    simp only [Option.getD_some]
    exact List.getElem_zipWith
  · intro span hspan x xs
    simp [ema]

/-- C8 (witness): the length equality at close = [3, 1, 2], spans 2
and 3. -/
theorem macd_ema_relation_witness :
    (macd [3, 1, 2] 2 3).length = [(3 : ℚ), 1, 2].length :=
  (macd_ema_relation [3, 1, 2] 2 3 (by decide) (by decide)).1

/-! ## C7: crossover -/

theorem gtSeries_getElem (x1 x2 : List ℚ) (h : x2.length = x1.length) (i : ℕ)
    (hi : i < (gtSeries x1 x2).length) :
    (gtSeries x1 x2)[i] = decide (x2.getD i 0 < x1.getD i 0) := by
  have h1 : i < x1.length := by simp [gtSeries, h] at hi; omega
  have h2 : i < x2.length := by omega
  simp only [gtSeries]
  rw [List.getElem_zipWith, List.getD_eq_getElem x1 0 h1, List.getD_eq_getElem x2 0 h2]

theorem crossover_mem_iff (x1 x2 : List ℚ) (h : x2.length = x1.length) (i : ℕ) :
    i ∈ crossover x1 x2 ↔ 1 ≤ i ∧ i < x1.length ∧
      ¬((x2.getD i 0 < x1.getD i 0) ↔ (x2.getD (i - 1) 0 < x1.getD (i - 1) 0)) := by
  have hgl : (gtSeries x1 x2).length = x1.length := by simp [gtSeries, h]
  unfold crossover
  rw [List.mem_filter, List.mem_range]
  cases i with
  | zero => simp [crossSeries]
  | succ j =>
    have hL : (crossSeries x1 x2).length = x1.length - 1 + 1 := by
      simp [crossSeries, hgl]
    by_cases hj1 : j + 1 < x1.length
    · have htl : j < (List.zipWith (fun p q => p != q)
          ((gtSeries x1 x2).drop 1) (gtSeries x1 x2)).length := by
        simp [hgl]
        omega
      have hgd : ((crossSeries x1 x2).getD (j + 1) false = true) ↔
          ¬((x2.getD (j + 1) 0 < x1.getD (j + 1) 0) ↔ (x2.getD j 0 < x1.getD j 0)) := by
        rw [show (crossSeries x1 x2).getD (j + 1) false =
            (List.zipWith (fun p q => p != q)
              ((gtSeries x1 x2).drop 1) (gtSeries x1 x2)).getD j false from rfl]
        rw [List.getD_eq_getElem _ _ htl, List.getElem_zipWith, List.getElem_drop]
        simp only [show 1 + j = j + 1 from Nat.add_comm 1 j]
        rw [gtSeries_getElem x1 x2 h _ (by omega), gtSeries_getElem x1 x2 h _ (by omega)]
        rw [bne_iff_ne]
        exact not_congr decide_eq_decide
      constructor
      · rintro ⟨hi, hp⟩
        exact ⟨by omega, hj1, by simpa using hgd.1 hp⟩
      · rintro ⟨hge, hlt, hne⟩
        exact ⟨by omega, hgd.2 (by simpa using hne)⟩
    · constructor
      · rintro ⟨hi, hp⟩
        rw [hL] at hi
        omega
      · rintro ⟨hge, hlt, hne⟩
        omega

/-- C7: for equal-length series the index list of crossover is strictly
increasing, never contains index 0, and contains exactly those indices
i ≥ 1 where the boolean x1[i] > x2[i] differs from x1[i-1] > x2[i-1];
consequently crossover(S, S) is empty for every series S. -/
theorem crossover_spec (x1 x2 : List ℚ) (h : x2.length = x1.length) :
    List.Pairwise (· < ·) (crossover x1 x2) ∧
    0 ∉ crossover x1 x2 ∧
    (∀ i, i ∈ crossover x1 x2 ↔ 1 ≤ i ∧ i < x1.length ∧
      ¬((x2.getD i 0 < x1.getD i 0) ↔ (x2.getD (i - 1) 0 < x1.getD (i - 1) 0))) ∧
    (∀ S : List ℚ, crossover S S = []) := by
  refine ⟨?_, ?_, crossover_mem_iff x1 x2 h, ?_⟩
  · exact List.Pairwise.sublist (List.filter_sublist _) (List.pairwise_lt_range _)
  · intro h0
    obtain ⟨h1, -, -⟩ := (crossover_mem_iff x1 x2 h 0).1 h0
    omega
  · intro S
    rw [List.eq_nil_iff_forall_not_mem]
    intro a ha
    obtain ⟨-, -, h3⟩ := (crossover_mem_iff S S rfl a).1 ha
    exact h3 (iff_of_false (lt_irrefl _) (lt_irrefl _))

/-- C7 (witness): index 0 is not reported for x1 = [1, 3, 1],
x2 = [2, 2, 2]. -/
theorem crossover_spec_witness : 0 ∉ crossover [1, 3, 1] [2, 2, 2] :=
  (crossover_spec [1, 3, 1] [2, 2, 2] rfl).2.1

/-! ## C6: maxmin -/

theorem npReduce0_foldl_spec (op : ℚ → ℚ → ℚ) (R : ℚ → ℚ → Prop)
    (hTrans : ∀ x y z, R x y → R y z → R x z) (hRefl : ∀ x, R x x)
    (hab1 : ∀ x y, R x (op x y)) (hab2 : ∀ x y, R y (op x y))
    (hor : ∀ x y, op x y = x ∨ op x y = y) :
    ∀ (rest : List (List ℚ)) (a : List ℚ) (L : ℕ), a.length = L →
      (∀ s ∈ rest, s.length = L) →
      (rest.foldl (fun acc s => List.zipWith op acc s) a).length = L ∧
      ∀ i < L,
        (R (a.getD i 0) ((rest.foldl (fun acc s => List.zipWith op acc s) a).getD i 0) ∧
          ∀ s ∈ rest,
            R (s.getD i 0) ((rest.foldl (fun acc s => List.zipWith op acc s) a).getD i 0)) ∧
        ((rest.foldl (fun acc s => List.zipWith op acc s) a).getD i 0 = a.getD i 0 ∨
          ∃ s ∈ rest, (rest.foldl (fun acc s => List.zipWith op acc s) a).getD i 0 = s.getD i 0) := by
  intro rest
  induction rest with
  | nil =>
    intro a L ha _
    exact ⟨ha, fun i hi => ⟨⟨hRefl _, by simp⟩, Or.inl rfl⟩⟩
  | cons s rest ih =>
    intro a L ha hrest
    have hs : s.length = L := hrest s (List.mem_cons_self _ _)
    have hzl : (List.zipWith op a s).length = L := by simp [ha, hs]
    have hrest2 : ∀ t ∈ rest, t.length = L := fun t ht => hrest t (List.mem_cons_of_mem _ ht)
    obtain ⟨ihl, ihP⟩ := ih (List.zipWith op a s) L hzl hrest2
    simp only [List.foldl_cons]
    refine ⟨ihl, fun i hi => ?_⟩
    have hz : (List.zipWith op a s).getD i 0 = op (a.getD i 0) (s.getD i 0) := by
      rw [List.getD_eq_getElem _ _ (show i < (List.zipWith op a s).length by omega),
        List.getElem_zipWith, List.getD_eq_getElem a 0 (by omega),
        List.getD_eq_getElem s 0 (by omega)]
    obtain ⟨⟨hb1, hb2⟩, hat⟩ := ihP i hi
    rw [hz] at hb1 hat
    refine ⟨⟨hTrans _ _ _ (hab1 _ _) hb1, ?_⟩, ?_⟩
    · intro t ht
      rcases List.mem_cons.1 ht with rfl | ht2
      · exact hTrans _ _ _ (hab2 _ _) hb1
      · exact hb2 t ht2
    · rcases hat with he | ⟨t, ht, he⟩
      · rcases hor (a.getD i 0) (s.getD i 0) with h4 | h4
        · exact Or.inl (by rw [he, h4])
        · exact Or.inr ⟨s, List.mem_cons_self _ _, by rw [he, h4]⟩
      · exact Or.inr ⟨t, List.mem_cons_of_mem _ ht, he⟩

/-- C6: for a stack of two or more equal-length series, maxmin with
mode "max" returns the elementwise maximum (an upper bound across the
stack, attained by some series, of the stack's common length), with
mode "min" the elementwise minimum, and with any other mode the
ValueError of the source; the spec's concrete scenario on
[[1,5,2],[3,1,4]] is included. -/
theorem maxmin_spec (args : List (List ℚ)) (L : ℕ) (hargs : 2 ≤ args.length)
    (hL : ∀ s ∈ args, s.length = L) :
    (∃ r, maxmin "max" args = Except.ok r ∧ r.length = L ∧
      ∀ i < L, (∀ s ∈ args, s.getD i 0 ≤ r.getD i 0) ∧
        ∃ s ∈ args, r.getD i 0 = s.getD i 0) ∧
    (∃ r, maxmin "min" args = Except.ok r ∧ r.length = L ∧
      ∀ i < L, (∀ s ∈ args, r.getD i 0 ≤ s.getD i 0) ∧
        ∃ s ∈ args, r.getD i 0 = s.getD i 0) ∧
    (∀ m : String, m ≠ "max" → m ≠ "min" →
      maxmin m args = Except.error "Enter \"max\" or \"min\" as max_or_min parameter.") ∧
    maxmin "max" [[1, 5, 2], [3, 1, 4]] = Except.ok [3, 5, 4] ∧
    maxmin "min" [[1, 5, 2], [3, 1, 4]] = Except.ok [1, 1, 2] ∧
    maxmin "avg" [[1, 5, 2], [3, 1, 4]] =
      Except.error "Enter \"max\" or \"min\" as max_or_min parameter." := by
  obtain ⟨a, rest, rfl⟩ : ∃ b t, args = b :: t := by
    cases args with
    | nil => simp at hargs
    | cons b t => exact ⟨b, t, rfl⟩
  have ha : a.length = L := hL a (List.mem_cons_self _ _)
  have hrest : ∀ t ∈ rest, t.length = L := fun t ht => hL t (List.mem_cons_of_mem _ ht)
  refine ⟨?_, ?_, ?_,
    by unfold maxmin; rw [if_pos rfl]; exact congrArg Except.ok (by decide),
    by unfold maxmin; rw [if_neg (by decide), if_pos rfl]
       exact congrArg Except.ok (by decide),
    by unfold maxmin; rw [if_neg (by decide), if_neg (by decide)]⟩
  · obtain ⟨hlen, hP⟩ := npReduce0_foldl_spec max (· ≤ ·)
      (fun x y z => le_trans) (fun x => le_refl x)
      le_max_left le_max_right max_choice rest a L ha hrest
    refine ⟨npReduce0 max (a :: rest), by simp [maxmin], hlen, fun i hi => ?_⟩
    obtain ⟨⟨hb1, hb2⟩, hat⟩ := hP i hi
    refine ⟨fun s hms => ?_, ?_⟩
    · rcases List.mem_cons.1 hms with rfl | hms2
      · exact hb1
      · exact hb2 s hms2
    · rcases hat with he | ⟨t, ht, he⟩
      · exact ⟨a, List.mem_cons_self _ _, he⟩
      · exact ⟨t, List.mem_cons_of_mem _ ht, he⟩
  · obtain ⟨hlen, hP⟩ := npReduce0_foldl_spec min (fun x y => y ≤ x)
      (fun x y z hxy hyz => le_trans hyz hxy) (fun x => le_refl x)
      min_le_left min_le_right min_choice rest a L ha hrest
    refine ⟨npReduce0 min (a :: rest), by simp [maxmin], hlen, fun i hi => ?_⟩
    obtain ⟨⟨hb1, hb2⟩, hat⟩ := hP i hi
    refine ⟨fun s hms => ?_, ?_⟩
    · rcases List.mem_cons.1 hms with rfl | hms2
      · exact hb1
      · exact hb2 s hms2
    · rcases hat with he | ⟨t, ht, he⟩
      · exact ⟨a, List.mem_cons_self _ _, he⟩
      · exact ⟨t, List.mem_cons_of_mem _ ht, he⟩
  · intro m hm1 hm2
    simp [maxmin, hm1, hm2]

/-- C6 (witness): the scenario value of mode "max" extracted from the
theorem at the stack [[1, 5, 2], [3, 1, 4]]. -/
theorem maxmin_spec_witness :
    maxmin "max" [[1, 5, 2], [3, 1, 4]] = Except.ok [3, 5, 4] :=
  (maxmin_spec [[1, 5, 2], [3, 1, 4]] 3 (by decide) (by decide)).2.2.2.1

/-! ## C3: fields of each emitted coarse row -/

theorem npMax_mem : ∀ (xs : List ℚ) (x : ℚ), npMax (x :: xs) ∈ x :: xs := by
  intro xs
  induction xs with
  | nil => intro x; simp [npMax]
  | cons a xs ih =>
    intro x
    rw [show npMax (x :: a :: xs) = npMax (max x a :: xs) from rfl]
    rcases List.mem_cons.1 (ih (max x a)) with he | hmem
    · rcases max_choice x a with h | h
      · rw [he, h]; exact List.mem_cons_self _ _
      · rw [he, h]; exact List.mem_cons_of_mem _ (List.mem_cons_self _ _)
    · exact List.mem_cons_of_mem _ (List.mem_cons_of_mem _ hmem)

theorem le_npMax : ∀ (xs : List ℚ) (x y : ℚ), y ∈ x :: xs → y ≤ npMax (x :: xs) := by
  intro xs
  induction xs with
  | nil =>
    intro x y hy
    rw [List.mem_singleton.1 hy]
    exact le_refl _
  | cons a xs ih =>
    intro x y hy
    rw [show npMax (x :: a :: xs) = npMax (max x a :: xs) from rfl]
    rcases List.mem_cons.1 hy with rfl | hy2
    · exact le_trans (le_max_left y a) (ih _ _ (List.mem_cons_self _ _))
    · rcases List.mem_cons.1 hy2 with rfl | hy3
      · exact le_trans (le_max_right x y) (ih _ _ (List.mem_cons_self _ _))
      · exact ih _ _ (List.mem_cons_of_mem _ hy3)

theorem npMin_mem : ∀ (xs : List ℚ) (x : ℚ), npMin (x :: xs) ∈ x :: xs := by
  intro xs
  induction xs with
  | nil => intro x; simp [npMin]
  | cons a xs ih =>
    intro x
    rw [show npMin (x :: a :: xs) = npMin (min x a :: xs) from rfl]
    rcases List.mem_cons.1 (ih (min x a)) with he | hmem
    · rcases min_choice x a with h | h
      · rw [he, h]; exact List.mem_cons_self _ _
      · rw [he, h]; exact List.mem_cons_of_mem _ (List.mem_cons_self _ _)
    · exact List.mem_cons_of_mem _ (List.mem_cons_of_mem _ hmem)

theorem npMin_le : ∀ (xs : List ℚ) (x y : ℚ), y ∈ x :: xs → npMin (x :: xs) ≤ y := by
  intro xs
  induction xs with
  | nil =>
    intro x y hy
    rw [List.mem_singleton.1 hy]
    exact le_refl _
  | cons a xs ih =>
    intro x y hy
    rw [show npMin (x :: a :: xs) = npMin (min x a :: xs) from rfl]
    rcases List.mem_cons.1 hy with rfl | hy2
    · exact le_trans (ih _ _ (List.mem_cons_self _ _)) (min_le_left y a)
    · rcases List.mem_cons.1 hy2 with rfl | hy3
      · exact le_trans (ih _ _ (List.mem_cons_self _ _)) (min_le_right x y)
      · exact ih _ _ (List.mem_cons_of_mem _ hy3)

theorem window_map_eq {α : Type} (f : Row → α) (T : List Row) (s k : ℕ)
    (hsk : s + k ≤ T.length) :
    ((T.drop s).take k).map f =
      (List.range k).map (fun i => f (T.getD (s + i) default)) := by
  apply List.ext_getElem
  · simp
    omega
  · intro i h1 h2
    simp only [List.getElem_map, List.getElem_take, List.getElem_drop, List.getElem_range]
    have hb : s + i < T.length := by
      simp at h1
      omega
    rw [List.getD_eq_getElem T default hb]

theorem group_candles_getD_eq (T : List Row) (k j : ℕ)
    (hj : j < (group_candles T k).length) :
    (group_candles T k).getD j default =
      { date := (T.getD (j * k) default).date
        «open» := (T.getD (j * k) default).open
        high := npMax (((T.drop (j * k)).take k).map Row.high)
        low := npMin (((T.drop (j * k)).take k).map Row.low)
        close := (T.getD (j * k + k) default).close
        volume := (((T.drop (j * k)).take k).map Row.volume).sum } := by
  rw [List.getD_eq_getElem _ _ hj]
  simp only [group_candles, rangeStep, List.getElem_map, List.getElem_range]

/-- C3: for k ≥ 1 every coarse row emitted by group_candles for the
window starting at index start = j * k takes its date and open from row
start, its high is an upper bound of the highs over rows
start..start+k-1 attained by one of them, its low is the corresponding
lower bound for the lows, its volume is the sum of the volumes over the
window, and its close is taken from row start + k, the row immediately
after the window. -/
theorem group_candles_row_fields (T : List Row) (k j : ℕ) (hk : 1 ≤ k)
    (hj : j < (group_candles T k).length) :
    ((group_candles T k).getD j default).date = (T.getD (j * k) default).date ∧
    ((group_candles T k).getD j default).open = (T.getD (j * k) default).open ∧
    (∀ i < k, (T.getD (j * k + i) default).high ≤
      ((group_candles T k).getD j default).high) ∧
    (∃ i, i < k ∧ ((group_candles T k).getD j default).high =
      (T.getD (j * k + i) default).high) ∧
    (∀ i < k, ((group_candles T k).getD j default).low ≤
      (T.getD (j * k + i) default).low) ∧
    (∃ i, i < k ∧ ((group_candles T k).getD j default).low =
      (T.getD (j * k + i) default).low) ∧
    ((group_candles T k).getD j default).close = (T.getD (j * k + k) default).close ∧
    ((group_candles T k).getD j default).volume =
      ((List.range k).map (fun i => (T.getD (j * k + i) default).volume)).sum := by
  have hsk : j * k + k ≤ T.length := by
    rw [group_candles_length_eq] at hj
    have := lt_of_lt_ceilDiv hk hj
    omega
  rw [group_candles_getD_eq T k j hj]
  rw [window_map_eq Row.high T (j * k) k hsk, window_map_eq Row.low T (j * k) k hsk,
    window_map_eq Row.volume T (j * k) k hsk]
  obtain ⟨c, cs, hw⟩ := List.exists_cons_of_ne_nil
    (show (List.range k).map (fun i => (T.getD (j * k + i) default).high) ≠ [] by
      simp
      omega)
  obtain ⟨c2, cs2, hw2⟩ := List.exists_cons_of_ne_nil
    (show (List.range k).map (fun i => (T.getD (j * k + i) default).low) ≠ [] by
      simp
      omega)
  refine ⟨rfl, rfl, ?_, ?_, ?_, ?_, rfl, rfl⟩
  · intro i hi
    rw [hw]
    exact le_npMax cs c _ (hw ▸ List.mem_map.2 ⟨i, List.mem_range.2 hi, rfl⟩)
  · have hm2 : npMax (c :: cs) ∈
        List.map (fun i => (T.getD (j * k + i) default).high) (List.range k) := by
      rw [hw]
      exact npMax_mem cs c
    obtain ⟨i, hi, he⟩ := List.mem_map.1 hm2
    refine ⟨i, List.mem_range.1 hi, ?_⟩
    show npMax (List.map (fun i => (T.getD (j * k + i) default).high) (List.range k)) = _
    rw [hw]
    exact he.symm
  · intro i hi
    rw [hw2]
    exact npMin_le cs2 c2 _ (hw2 ▸ List.mem_map.2 ⟨i, List.mem_range.2 hi, rfl⟩)
  · have hm2 : npMin (c2 :: cs2) ∈
        List.map (fun i => (T.getD (j * k + i) default).low) (List.range k) := by
      rw [hw2]
      exact npMin_mem cs2 c2
    obtain ⟨i, hi, he⟩ := List.mem_map.1 hm2
    refine ⟨i, List.mem_range.1 hi, ?_⟩
    show npMin (List.map (fun i => (T.getD (j * k + i) default).low) (List.range k)) = _
    rw [hw2]
    exact he.symm

/-- C3 (witness): the date of output row 1 at the sample table with
ratio 2 comes from input row 2. -/
theorem group_candles_row_fields_witness :
    ((group_candles tenRows 2).getD 1 default).date = (tenRows.getD 2 default).date :=
  (group_candles_row_fields tenRows 2 1 (by decide) (by decide)).1

/-! ## C4: fill_values -/

theorem linspaceNE_length (a b : ℚ) (num : ℕ) : (linspaceNE a b num).length = num := by
  unfold linspaceNE
  rw [List.length_map, List.length_range]

theorem fvPairs_length (averages : List ℚ) :
    (fvPairs averages).length = averages.length - 1 := by
  simp [fvPairs]

theorem fvUnpack_length (averages : List ℚ) (k : ℕ) :
    (fvUnpack averages k).length = (averages.length - 1) * k := by
  unfold fvUnpack
  rw [List.length_flatten, List.map_map]
  have h1 : (List.map (List.length ∘ fun p => linspaceNE p.1 p.2 k) (fvPairs averages)) =
      List.map (Function.const (ℚ × ℚ) k) (fvPairs averages) :=
    List.map_congr_left (fun p _ => linspaceNE_length p.1 p.2 k)
  rw [h1, List.map_const, List.sum_replicate, smul_eq_mul, fvPairs_length]

theorem flatten_linspace_getD (k : ℕ) :
    ∀ (ps : List (ℚ × ℚ)) (j t : ℕ), j < ps.length → t < k →
      ((ps.map (fun p => linspaceNE p.1 p.2 k)).flatten).getD (j * k + t) 0 =
        (ps.getD j (0, 0)).1 +
          ((ps.getD j (0, 0)).2 - (ps.getD j (0, 0)).1) * t / k := by
  intro ps
  induction ps with
  | nil =>
    intro j t hj ht
    exact absurd hj (Nat.not_lt_zero j)
  | cons p ps ih =>
    intro j t hj ht
    rw [List.map_cons, List.flatten_cons]
    cases j with
    | zero =>
      simp only [Nat.zero_mul, Nat.zero_add, List.getD_cons_zero]
      have hb : t < (linspaceNE p.1 p.2 k).length := by rw [linspaceNE_length]; exact ht
      rw [List.getD_eq_getElem _ _ (by simp [linspaceNE_length]; omega),
        List.getElem_append_left hb]
      simp only [linspaceNE, List.getElem_map, List.getElem_range]
    | succ j =>
      have hlen : (linspaceNE p.1 p.2 k).length = k := linspaceNE_length p.1 p.2 k
      have hidx : (j + 1) * k + t = k + (j * k + t) := by rw [Nat.succ_mul]; omega
      rw [hidx, List.getD_eq_getElem?_getD,
        List.getElem?_append_right (by rw [hlen]; omega),
        hlen, Nat.add_sub_cancel_left, ← List.getD_eq_getElem?_getD,
        ih j t (by simp only [List.length_cons] at hj; omega) ht, List.getD_cons_succ]

/-- C4 (counterexample): fill_values [0, 1] 3 1 asks for one output
sample but the three interpolated points [0, 1/3, 2/3] are never
truncated, so the result has length 3, not target_len = 1. -/
theorem fill_values_length_counterexample :
    (fill_values [0, 1] 3 1).length = 3 ∧ (3 : ℕ) ≠ 1 := by
  constructor
  · decide
  · decide

/-- C4 (amended): for every non-empty list of coarse samples, ratio
k ≥ 1 and target_len at least the interpolated length
(len(avgs) - 1) * k, fill_values returns exactly target_len elements;
its first element equals avgs[0] whenever target_len ≥ 1, between the
consecutive coarse samples j and j+1 it places the k evenly spaced
endpoint-exclusive points avgs[j] + (avgs[j+1] - avgs[j]) * t / k at
positions j * k + t, and from position (len(avgs) - 1) * k on it pads
with the last coarse value.  (When target_len is smaller than the
interpolated length, the source performs no truncation and returns all
(len(avgs) - 1) * k interpolated samples.) -/
theorem fill_values_spec (averages : List ℚ) (k target_len : ℕ)
    (hne : averages ≠ []) (hk : 1 ≤ k)
    (ht : (averages.length - 1) * k ≤ target_len) :
    (fill_values averages k target_len).length = target_len ∧
    (1 ≤ target_len →
      (fill_values averages k target_len).getD 0 0 = averages.getD 0 0) ∧
    (∀ j t, j + 1 < averages.length → t < k →
      (fill_values averages k target_len).getD (j * k + t) 0 =
        averages.getD j 0 + (averages.getD (j + 1) 0 - averages.getD j 0) * t / k) ∧
    (∀ i, (averages.length - 1) * k ≤ i → i < target_len →
      (fill_values averages k target_len).getD i 0 = averages.getLastD 0) := by
  have hu : (fvUnpack averages k).length = (averages.length - 1) * k :=
    fvUnpack_length averages k
  have hpair : ∀ j, j + 1 < averages.length →
      (fvPairs averages).getD j (0, 0) = (averages.getD j 0, averages.getD (j + 1) 0) := by
    intro j hj
    have hjz : j < (fvPairs averages).length := by rw [fvPairs_length]; omega
    have hjt : j < (averages.take (averages.length - 1)).length := by simp; omega
    have hjd : j < (averages.drop 1).length := by simp; omega
    unfold fvPairs
    rw [List.getD_eq_getElem _ _ (by simpa [fvPairs] using hjz), List.getElem_zip]
    rw [List.getElem_take, List.getElem_drop]
    rw [List.getD_eq_getElem averages 0 (by omega), List.getD_eq_getElem averages 0 (by omega)]
    simp [Nat.add_comm 1 j]
  have hinterp : ∀ j t, j + 1 < averages.length → t < k →
      (fill_values averages k target_len).getD (j * k + t) 0 =
        averages.getD j 0 + (averages.getD (j + 1) 0 - averages.getD j 0) * t / k := by
    intro j t hj htk
    have hjk : j * k + t < (fvUnpack averages k).length := by
      rw [hu]
      have h1 : (j + 1) * k ≤ (averages.length - 1) * k :=
        Nat.mul_le_mul_right k (by omega)
      rw [Nat.succ_mul] at h1
      omega
    unfold fill_values
    rw [List.getD_eq_getElem?_getD, List.getElem?_append_left hjk,
      ← List.getD_eq_getElem?_getD]
    unfold fvUnpack
    rw [flatten_linspace_getD k (fvPairs averages) j t (by rw [fvPairs_length]; omega) htk,
      hpair j hj]
  refine ⟨?_, ?_, hinterp, ?_⟩
  · simp only [fill_values, List.length_append, List.length_replicate, hu]
    omega
  · intro htl
    rcases Nat.lt_or_ge 1 averages.length with h2 | h2
    · have := hinterp 0 0 (by omega) (by omega)
      simp only [Nat.zero_mul, Nat.zero_add] at this
      rw [this]
      push_cast
      ring
    · have hlen1 : averages.length = 1 := by
        have hpos : 0 < averages.length := List.length_pos.2 hne
        omega
      obtain ⟨x, rfl⟩ := List.length_eq_one.1 hlen1
      unfold fill_values fvUnpack fvPairs
      simp [htl, List.getD_eq_getElem?_getD, List.getElem?_replicate]
      rw [if_pos (show 0 < target_len by omega)]
      rfl
  · intro i h1 h2
    have hfl : (fvUnpack averages k).length ≤ i := by rw [hu]; exact h1
    have hlt : i - (fvUnpack averages k).length <
        target_len - (fvUnpack averages k).length := by
      rw [hu]
      omega
    unfold fill_values
    rw [List.getD_eq_getElem?_getD, List.getElem?_append_right hfl,
      List.getElem?_replicate, if_pos hlt, Option.getD_some]

/-- C4 (witness): the amended exact-length guarantee at
averages = [0, 1, 2], k = 2, target_len = 7. -/
theorem fill_values_spec_witness : (fill_values [0, 1, 2] 2 7).length = 7 :=
  (fill_values_spec [0, 1, 2] 2 7 (by decide) (by decide) (by decide)).1
